import Mathlib

/-!
Verification development for the image-reconciliation core of the
diff-docx repository (src/internal/image/compare.go).

The Go code is shallowly embedded: pure functions become Lean functions,
the external ImageMagick process is an abstract oracle parameter, Go
float64 scores are modelled as exact rationals, and Go strings are
modelled as Lean strings / lists of characters.
-/

namespace DiffDocx

/-! ## String helpers (models of the Go standard library pieces used) -/

/-- Characters matched by the Go regexp class backslash-s
(space, tab, newline, carriage return, form feed). -/
def isSpaceGo (c : Char) : Bool :=
  c = ' ' || c = '\t' || c = '\n' || c = '\r' || c = '\x0c'

/-- Lowercase a list of characters (model of strings.ToLower on the
ASCII data that appears here). -/
def toLowerList (cs : List Char) : List Char :=
  cs.map Char.toLower

/-- Lowercase a string characterwise (model of strings.ToLower on the
ASCII data that appears here; the built-in String.toLower is avoided
only because its byte-position recursion does not reduce in the
kernel). -/
def toLowerStr (s : String) : String :=
  ⟨s.data.map Char.toLower⟩

/-- Does the second list occur as a contiguous sublist of the first?
Model of strings.Contains. -/
def containsSub (haystack needle : List Char) : Bool :=
  match haystack with
  | [] => needle.isEmpty
  | _ :: rest =>
    if needle.isPrefixOf haystack then true else containsSub rest needle

/-- Model of path/filepath.Ext: scan the reversed path, returning the
suffix that starts at the final dot of the final path element,
or the empty string when there is none. The accumulator carries the
characters already passed, in forward order. -/
def extFromRev : List Char → List Char → List Char
  | [], _ => []
  | c :: rest, acc =>
    if c = '/' then []
    else if c = '.' then '.' :: acc
    else extFromRev rest (c :: acc)

/-- filepath.Ext as a function on strings. -/
def filePathExt (s : String) : String :=
  ⟨extFromRev s.data.reverse []⟩

/-- Model of path/filepath.Base for the plain relative names used here:
the characters after the last slash. -/
def baseOf (s : String) : String :=
  ⟨(s.data.reverse.takeWhile (fun c => c ≠ '/')).reverse⟩

/-- Model of strings.TrimSuffix. -/
def trimSuffix (s suf : String) : String :=
  if suf.data.isSuffixOf s.data then
    ⟨s.data.take (s.data.length - suf.data.length)⟩
  else s

/-- Model of filepath.Join for a nonempty directory and a plain name
(path cleaning is irrelevant here: paths are opaque locators). -/
def joinPath (dir name : String) : String :=
  if dir = "" then name else dir ++ "/" ++ name


/-! ## A computable lexicographic string order

Go sorts names with the built-in string less-than, which is bytewise
lexicographic; on UTF-8 data this agrees with the characterwise
lexicographic order used here.  (The library order on String does not
reduce in the kernel, so the model carries its own.) -/

/-- Lexicographic less-or-equal on character lists. -/
def leChars : List Char → List Char → Bool
  | [], _ => true
  | _ :: _, [] => false
  | a :: as, b :: bs =>
    if a < b then true else if b < a then false else leChars as bs

theorem leChars_total : ∀ as bs, leChars as bs = true ∨ leChars bs as = true
  | [], _ => Or.inl rfl
  | _ :: _, [] => Or.inr rfl
  | a :: as, b :: bs => by
    rcases lt_trichotomy a b with hab | rfl | hab
    · left
      simp only [leChars]
      rw [if_pos hab]
    · simp only [leChars, lt_irrefl, if_false]
      exact leChars_total as bs
    · right
      simp only [leChars]
      rw [if_pos hab]

theorem leChars_trans : ∀ as bs cs, leChars as bs = true → leChars bs cs = true →
    leChars as cs = true
  | [], _, _ => fun _ _ => rfl
  | _ :: _, [], _ => fun h _ => absurd h (by simp [leChars])
  | _ :: _, _ :: _, [] => fun _ h => absurd h (by simp [leChars])
  | a :: as, b :: bs, c :: cs => by
    intro h1 h2
    simp only [leChars] at h1 h2 ⊢
    rcases lt_trichotomy a b with hab | rfl | hab
    · rcases lt_trichotomy b c with hbc | rfl | hbc
      · rw [if_pos (lt_trans hab hbc)]
      · rw [if_pos hab]
      · rw [if_neg (lt_asymm hbc), if_pos hbc] at h2
        exact absurd h2 (by simp)
    · rcases lt_trichotomy a c with hac | rfl | hac
      · rw [if_pos hac]
      · simp only [lt_irrefl, if_false] at h1 h2 ⊢
        exact leChars_trans as bs cs h1 h2
      · rw [if_neg (lt_asymm hac), if_pos hac] at h2
        exact absurd h2 (by simp)
    · rw [if_neg (lt_asymm hab), if_pos hab] at h1
      exact absurd h1 (by simp)

theorem leChars_antisymm : ∀ as bs, leChars as bs = true → leChars bs as = true →
    as = bs
  | [], [] => fun _ _ => rfl
  | [], _ :: _ => fun _ h2 => absurd h2 (by simp [leChars])
  | _ :: _, [] => fun h1 _ => absurd h1 (by simp [leChars])
  | a :: as, b :: bs => by
    intro h1 h2
    rcases lt_trichotomy a b with hab | rfl | hab
    · simp only [leChars] at h2
      rw [if_neg (lt_asymm hab), if_pos hab] at h2
      exact absurd h2 (by simp)
    · simp only [leChars, lt_irrefl, if_false] at h1 h2
      rw [leChars_antisymm as bs h1 h2]
    · simp only [leChars] at h1
      rw [if_neg (lt_asymm hab), if_pos hab] at h1
      exact absurd h1 (by simp)

/-- The string order the model sorts with. -/
def strLe (a b : String) : Prop :=
  leChars a.data b.data = true

instance : DecidableRel strLe :=
  fun a b => inferInstanceAs (Decidable (leChars a.data b.data = true))

instance : IsTotal String strLe :=
  ⟨fun a b => leChars_total a.data b.data⟩

instance : IsTrans String strLe :=
  ⟨fun a b c => leChars_trans a.data b.data c.data⟩

instance : IsAntisymm String strLe :=
  ⟨fun a b h1 h2 => by
    cases a
    cases b
    exact congrArg String.mk (leChars_antisymm _ _ h1 h2)⟩

/-! ## The channel-value scanner

Model of the Go regexp
(?i)(red|green|blue|all):[space]*([digits-and-dots]+|inf)
applied with FindAllStringSubmatch: successive leftmost matches, the
second capture group collected for each.  At a given position the
engine first tries a nonempty run of digits and dots, then the literal
inf, both case-insensitively. -/

/-- Case-insensitively match a literal lowercase word at the front of
the input, returning the rest of the input on success. -/
def matchCI : List Char → List Char → Option (List Char)
  | [], s => some s
  | _, [] => none
  | w :: ws, c :: cs => if c.toLower = w then matchCI ws cs else none

/-- Try the four channel words of the regexp alternation. -/
def matchChanWord (s : List Char) : Option (List Char) :=
  match matchCI ['r', 'e', 'd'] s with
  | some r => some r
  | none =>
    match matchCI ['g', 'r', 'e', 'e', 'n'] s with
    | some r => some r
    | none =>
      match matchCI ['b', 'l', 'u', 'e'] s with
      | some r => some r
      | none => matchCI ['a', 'l', 'l'] s

/-- Match the value capture group: a nonempty greedy run of digits and
dots, or else the literal inf (case-insensitive).  Returns the captured
text and the rest of the input. -/
def matchValue (s : List Char) : Option (List Char × List Char) :=
  let digits := s.takeWhile (fun c => c.isDigit || c = '.')
  if digits.isEmpty then
    match matchCI ['i', 'n', 'f'] s with
    | some rest => some (s.take 3, rest)
    | none => none
  else
    some (digits, s.drop digits.length)

/-- Attempt one full regexp match anchored at the head of the input:
channel word, colon, optional whitespace, value.  Returns the captured
value text and the input after the match. -/
def matchAt (s : List Char) : Option (List Char × List Char) :=
  match matchChanWord s with
  | none => none
  | some afterWord =>
    match afterWord with
    | ':' :: afterColon => matchValue (afterColon.dropWhile isSpaceGo)
    | _ => none

/-- Successive leftmost matches, fuelled by the input length (every
step consumes at least one character, so the fuel never runs out on a
nonempty remainder). -/
def findVals : Nat → List Char → List (List Char)
  | 0, _ => []
  | n + 1, s =>
    match matchAt s with
    | some (v, r) => v :: findVals n r
    | none =>
      match s with
      | [] => []
      | _ :: rest => findVals n rest

/-- All captured channel-value strings of the oracle output, in order.
Model of channelPattern.FindAllStringSubmatch with the second group
extracted. -/
def findChannelValues (s : List Char) : List (List Char) :=
  findVals s.length s

/-! ## Float parsing and the scoring loop -/

/-- Digits of a decimal string as a natural number. -/
def digitsToNat (cs : List Char) : Nat :=
  cs.foldl (fun n c => 10 * n + (c.toNat - 48)) 0

/-- Model of strconv.ParseFloat restricted to strings of digits and
dots (the only shape the digits branch of the regexp can capture,
modelled with exact rational values): at most one dot and at least one
digit, otherwise a parse error. -/
def parseDigitsDots (cs : List Char) : Option ℚ :=
  if cs.all (fun c => c.isDigit || c = '.') ∧ ¬cs.isEmpty then
    match cs.splitOn '.' with
    | [intPart] =>
      if intPart.isEmpty then none else some (digitsToNat intPart)
    | [intPart, fracPart] =>
      if intPart.isEmpty ∧ fracPart.isEmpty then none
      else some ((digitsToNat intPart : ℚ) +
        (digitsToNat fracPart : ℚ) / ((10 : ℚ) ^ fracPart.length))
    | _ => none
  else none

/-- The usable numeric score of one captured value: none for the inf
sentinel (skipped by the loop) and for unparseable text. -/
def parseValue (v : List Char) : Option ℚ :=
  if toLowerList v = ['i', 'n', 'f'] then none else parseDigitsDots v

/-- PSNRThreshold below which images are considered different. -/
def PSNRThreshold : ℚ := 1

/-- The accumulation loop over the captured values: skip inf and
unparseable values, keep the minimum of the parsed values, and flag
isDifferent when a parsed value falls below the threshold. -/
def scoreLoop : List (List Char) → Bool → ℚ → Bool × ℚ
  | [], isDifferent, psnr => (isDifferent, psnr)
  | v :: rest, isDifferent, psnr =>
    match parseValue v with
    | none => scoreLoop rest isDifferent psnr
    | some q =>
      scoreLoop rest (if q < PSNRThreshold then true else isDifferent)
        (if psnr < 0 ∨ q < psnr then q else psnr)

/-- Does the raw output indicate a zero-valued signal?  Model of the
two strings.Contains checks of the fallback branch. -/
def zeroSignal (output : List Char) : Bool :=
  containsSub output [' ', '0', ' '] || containsSub output [' ', '0', '\n']

/-- parsePSNROutput from compare.go: scan the oracle output for channel
values, fold them through the scoring loop starting from the sentinel
-1, and apply the zero-signal fallback when nothing parsed. -/
def parsePSNROutput (output : List Char) : Bool × ℚ :=
  if (scoreLoop (findChannelValues output) false (-1)).2 < 0 then
    if zeroSignal output then (true, 0)
    else ((scoreLoop (findChannelValues output) false (-1)).1, -1)
  else scoreLoop (findChannelValues output) false (-1)

/-- The parsed per-channel similarity scores of an output: the captured
values that survive the inf filter and float parsing. -/
def channelScores (output : List Char) : List ℚ :=
  (findChannelValues output).filterMap parseValue

/-- Minimum of a nonempty list of rationals, head-seeded fold. -/
def listMin (v : ℚ) (vs : List ℚ) : ℚ :=
  vs.foldl min v

/-- One step of the running-minimum update of the Go loop, with -1 as
the "nothing seen yet" sentinel. -/
def minGo (p q : ℚ) : ℚ :=
  if p < 0 ∨ q < p then q else p

/-! ## Lemmas about the parsing pipeline -/

theorem digitsToNat_cast_nonneg (cs : List Char) : (0 : ℚ) ≤ (digitsToNat cs : ℚ) := by
  exact_mod_cast Nat.zero_le _

theorem parseDigitsDots_nonneg {cs : List Char} {q : ℚ}
    (h : parseDigitsDots cs = some q) : 0 ≤ q := by
  unfold parseDigitsDots at h
  split at h
  · rcases hs : cs.splitOn '.' with _ | ⟨a, _ | ⟨b, _ | _⟩⟩ <;> rw [hs] at h <;>
      simp only [Option.some.injEq] at h
    · exact absurd h (by simp)
    · split at h
      · exact absurd h (by simp)
      · cases h
        exact digitsToNat_cast_nonneg a
    · split at h
      · exact absurd h (by simp)
      · cases h
        have hb : (0 : ℚ) ≤ (digitsToNat b : ℚ) / (10 : ℚ) ^ b.length :=
          div_nonneg (digitsToNat_cast_nonneg b) (by positivity)
        exact add_nonneg (digitsToNat_cast_nonneg a) hb
    · exact absurd h (by simp)
  · exact absurd h (by simp)

theorem parseValue_nonneg {v : List Char} {q : ℚ}
    (h : parseValue v = some q) : 0 ≤ q := by
  unfold parseValue at h
  split at h
  · exact absurd h (by simp)
  · exact parseDigitsDots_nonneg h

theorem channelScores_nonneg {output : List Char} {q : ℚ}
    (h : q ∈ channelScores output) : 0 ≤ q := by
  unfold channelScores at h
  rcases List.mem_filterMap.mp h with ⟨v, _, hv⟩
  exact parseValue_nonneg hv

theorem scoreLoop_fst (vs : List (List Char)) (d : Bool) (p : ℚ) :
    (scoreLoop vs d p).1 =
      (d || (vs.filterMap parseValue).any (fun q => decide (q < PSNRThreshold))) := by
  induction vs generalizing d p with
  | nil => simp [scoreLoop]
  | cons v rest ih =>
    unfold scoreLoop
    cases hv : parseValue v with
    | none => simp [hv, ih]
    | some q =>
      rw [List.filterMap_cons_some hv, List.any_cons, ih]
      by_cases hq : q < PSNRThreshold
      · simp [hq]
      · simp [hq]

theorem scoreLoop_snd (vs : List (List Char)) (d : Bool) (p : ℚ) :
    (scoreLoop vs d p).2 = (vs.filterMap parseValue).foldl minGo p := by
  induction vs generalizing d p with
  | nil => simp [scoreLoop]
  | cons v rest ih =>
    unfold scoreLoop
    cases hv : parseValue v with
    | none => simp [hv, ih]
    | some q =>
      rw [List.filterMap_cons_some hv, List.foldl_cons, ih]
      rfl

theorem foldl_minGo_eq_min {vs : List ℚ} (hvs : ∀ q ∈ vs, 0 ≤ q) {v : ℚ} (hv : 0 ≤ v) :
    vs.foldl minGo v = listMin v vs := by
  induction vs generalizing v with
  | nil => simp [listMin]
  | cons q rest ih =>
    have hq : 0 ≤ q := hvs q (by simp)
    have hrest : ∀ r ∈ rest, 0 ≤ r := fun r hr => hvs r (by simp [hr])
    have hmin : minGo v q = min v q := by
      unfold minGo
      rcases lt_or_le q v with h | h
      · rw [if_pos (Or.inr h), min_eq_right h.le]
      · have hcond : ¬(v < 0 ∨ q < v) := by
          push_neg
          exact ⟨hv, h⟩
        rw [if_neg hcond, min_eq_left h]
    simp only [List.foldl_cons, listMin, hmin]
    rw [ih hrest (le_min hv hq)]
    rfl

theorem listMin_nonneg {v : ℚ} (hv : 0 ≤ v) {vs : List ℚ} (hvs : ∀ q ∈ vs, 0 ≤ q) :
    0 ≤ listMin v vs := by
  induction vs generalizing v with
  | nil => exact hv
  | cons q rest ih =>
    have hq : 0 ≤ q := hvs q (by simp)
    exact ih (le_min hv hq) (fun r hr => hvs r (by simp [hr]))

theorem parsePSNROutput_of_nil {output : List Char}
    (hs : channelScores output = []) :
    parsePSNROutput output = if zeroSignal output then (true, 0) else (false, -1) := by
  have h1 := scoreLoop_fst (findChannelValues output) false (-1)
  have h2 := scoreLoop_snd (findChannelValues output) false (-1)
  have hcs : (findChannelValues output).filterMap parseValue = channelScores output := rfl
  rw [hcs, hs] at h1 h2
  simp only [List.foldl_nil] at h2
  simp only [List.any_nil, Bool.or_false] at h1
  unfold parsePSNROutput
  rw [h1, h2]
  norm_num

theorem parsePSNROutput_of_cons {output : List Char} {v : ℚ} {vs : List ℚ}
    (hs : channelScores output = v :: vs) :
    parsePSNROutput output =
      ((v :: vs).any (fun q => decide (q < PSNRThreshold)), listMin v vs) := by
  have h1 := scoreLoop_fst (findChannelValues output) false (-1)
  have h2 := scoreLoop_snd (findChannelValues output) false (-1)
  have hcs : (findChannelValues output).filterMap parseValue = channelScores output := rfl
  rw [hcs, hs] at h1 h2
  have hv : 0 ≤ v := channelScores_nonneg (by rw [hs]; simp)
  have hvs : ∀ q ∈ vs, 0 ≤ q := fun q hq => channelScores_nonneg (by rw [hs]; simp [hq])
  have h2' : (scoreLoop (findChannelValues output) false (-1)).2 = listMin v vs := by
    rw [h2]
    simp only [List.foldl_cons]
    have hseed : minGo (-1) v = v := by
      unfold minGo; rw [if_pos (Or.inl (by norm_num))]
    rw [hseed]
    exact foldl_minGo_eq_min hvs hv
  have hnn : ¬(scoreLoop (findChannelValues output) false (-1)).2 < 0 := by
    rw [h2']
    exact (listMin_nonneg hv hvs).not_lt
  unfold parsePSNROutput
  rw [if_neg hnn]
  have hpair : scoreLoop (findChannelValues output) false (-1) =
      ((scoreLoop (findChannelValues output) false (-1)).1,
       (scoreLoop (findChannelValues output) false (-1)).2) := rfl
  rw [hpair, h1, h2']
  simp

/-! ## Claim C3 and C6: classification and score of parsePSNROutput -/

/-- C3: the parsed outcome is classified different exactly when some
parsed channel score is strictly below the threshold 1.0, or no channel
data parses at all and the raw output indicates zero-valued signal;
and with no parseable channel data and no zero-signal indication the
result is the undefined sentinel score with a not-different outcome. -/
theorem parsePSNROutput_different_iff (output : List Char) :
    ((parsePSNROutput output).1 = true ↔
      (∃ q ∈ channelScores output, q < PSNRThreshold) ∨
        (channelScores output = [] ∧ zeroSignal output = true)) ∧
    (channelScores output = [] ∧ zeroSignal output = false →
      parsePSNROutput output = (false, -1)) := by
  constructor
  · cases hs : channelScores output with
    | nil =>
      rw [parsePSNROutput_of_nil hs]
      cases hz : zeroSignal output <;> simp [hz]
    | cons v vs =>
      rw [parsePSNROutput_of_cons hs]
      simp only [List.any_eq_true, decide_eq_true_eq, hs]
      constructor
      · rintro ⟨q, hq, hlt⟩
        exact Or.inl ⟨q, hq, hlt⟩
      · rintro (⟨q, hq, hlt⟩ | ⟨hnil, _⟩)
        · exact ⟨q, hq, hlt⟩
        · exact absurd hnil (by simp)
  · rintro ⟨hnil, hz⟩
    rw [parsePSNROutput_of_nil hnil, hz]
    simp

/-- Witness for parsePSNROutput_different_iff at a concrete unparseable
output with no zero-signal indication. -/
theorem parsePSNROutput_different_iff_witness :
    parsePSNROutput ['x'] = (false, -1) :=
  (parsePSNROutput_different_iff ['x']).2 ⟨by decide, by decide⟩

/-- C6: the overall score is the minimum across all parsed per-channel
similarity values (worst channel wins); when no channel value parses,
it is 0 under the zero-signal fallback and otherwise the negative
undefined sentinel -1. -/
theorem parsePSNROutput_score_min (output : List Char) :
    (parsePSNROutput output).2 =
      match channelScores output with
      | [] => if zeroSignal output then 0 else -1
      | v :: vs => listMin v vs := by
  cases hs : channelScores output with
  | nil =>
    rw [parsePSNROutput_of_nil hs]
    cases hz : zeroSignal output <;> simp [hz]
  | cons v vs =>
    rw [parsePSNROutput_of_cons hs]

/-! ## The compare operation

compare from compare.go runs the external ImageMagick process.  The
process behaviour is abstracted as the pair of its combined output
(stderr then stdout) and its run outcome: Go reports nil for exit
status 0, an exec.ExitError carrying the exit code for a nonzero exit,
and a different error type when the process could not be started at
all (binary missing, I/O failure). -/

/-- Outcome of cmd.Run. -/
inductive RunOutcome
  | ok
  | exitCode (code : Int)
  | startFailure
  deriving DecidableEq, Repr

/-- compare from compare.go, as a function of the process behaviour:
parse the output, clear the artifact path when not different, and
return an error only for an exec.ExitError whose exit code exceeds 1
when the output was not classified as different. -/
def compareGo (image1 outputDir : String) (output : List Char)
    (run : RunOutcome) : Except String (Bool × ℚ × String) :=
  let baseName := trimSuffix (baseOf image1) (filePathExt image1)
  let diffPath0 := joinPath outputDir (baseName ++ "_cmp.png")
  let isDifferent := (parsePSNROutput output).1
  let psnr := (parsePSNROutput output).2
  let diffPath := if isDifferent then diffPath0 else ""
  match run with
  | RunOutcome.exitCode code =>
    if code > 1 ∧ isDifferent = false then
      Except.error "ImageMagick compare failed"
    else Except.ok (isDifferent, psnr, diffPath)
  | _ => Except.ok (isDifferent, psnr, diffPath)

/-- Is an Except result an error? -/
def isErr {ε α : Type} : Except ε α → Bool
  | Except.error _ => true
  | Except.ok _ => false

/-! ## Claim C2: when compare reports an error -/

/-- C2 counterexample: the claim says compare errs whenever the oracle
could not run at all (binary missing) and whenever the process failure
severity exceeds "images differ"; the code instead returns success for
a start failure (empty output, classified not-different with sentinel
score), and also returns success for exit code 2 when the output was
classified as different. -/
theorem compareGo_claim_counterexample :
    compareGo "a.png" "o" [] RunOutcome.startFailure =
      Except.ok (false, -1, "") ∧
    compareGo "a.png" "o" " 0 ".data (RunOutcome.exitCode 2) =
      Except.ok (true, 0, "o/a_cmp.png") := by
  constructor
  · rfl
  · rfl

/-- C2 amended: compare returns an error exactly when the oracle
process terminated with an exit code greater than 1 and the parsed
output was not classified as different; exit code 1 (images differ) is
never an error, and a failure to start the process at all is also not
an error (the outcome is then computed from the captured output). -/
theorem compareGo_error_iff (image1 outputDir : String) (output : List Char)
    (run : RunOutcome) :
    isErr (compareGo image1 outputDir output run) = true ↔
      ∃ code : Int, run = RunOutcome.exitCode code ∧ code > 1 ∧
        (parsePSNROutput output).1 = false := by
  unfold compareGo
  cases run with
  | ok => simp [isErr]
  | startFailure => simp [isErr]
  | exitCode code =>
    by_cases h : code > 1 ∧ (parsePSNROutput output).1 = false
    · simp only [h, if_pos, isErr]
      simp [h.1, h.2]
    · simp only [h, if_neg, not_false_iff, isErr]
      simp only [false_iff, Bool.false_eq_true]
      rintro ⟨c, hc, hgt, hfalse⟩
      cases hc
      exact h ⟨hgt, hfalse⟩


/-! ## Data model of the matching engine -/

/-- imageEntry from compare.go. -/
structure imageEntry where
  name : String
  path : String
  deriving DecidableEq, Repr

/-- ImageInfo from compare.go. -/
structure ImageInfo where
  Name : String
  Path : String
  deriving DecidableEq, Repr

/-- The ImageInfo built from an imageEntry (the literal field copy done
at every result-append site). -/
def toInfo (e : imageEntry) : ImageInfo :=
  ⟨e.name, e.path⟩

/-- MatchedPair from compare.go. -/
structure MatchedPair where
  Image1 : ImageInfo
  Image2 : ImageInfo
  deriving DecidableEq, Repr

/-- DiffPair from compare.go, PSNR modelled as an exact rational. -/
structure DiffPair where
  Image1 : ImageInfo
  Image2 : ImageInfo
  PSNR : ℚ
  DiffPath : String
  deriving DecidableEq, Repr

/-- MatchResult from compare.go. -/
structure MatchResult where
  Matched : List MatchedPair
  Different : List DiffPair
  OnlyIn1 : List ImageInfo
  OnlyIn2 : List ImageInfo
  Skipped : List ImageInfo
  deriving DecidableEq, Repr

/-- The zero value of MatchResult that MatchImageSets starts from. -/
def emptyResult : MatchResult :=
  ⟨[], [], [], [], []⟩

/-- The comparison oracle: the compare function viewed abstractly, as a
map from the two image paths and the output directory to either a hard
error or the (isDifferent, psnr, diffPath) triple. -/
abbrev Cmp := String → String → String → Except String (Bool × ℚ × String)

/-! ## Format capability table -/

/-- Membership in the rasterExts set of compare.go. -/
def rasterExts (ext : String) : Bool :=
  ext = ".png" || ext = ".jpg" || ext = ".jpeg" || ext = ".bmp" ||
    ext = ".gif" || ext = ".tiff" || ext = ".tif" || ext = ".webp"

/-- Membership in the vectorExts set of compare.go. -/
def vectorExts (ext : String) : Bool :=
  ext = ".wmf" || ext = ".emf" || ext = ".svg"

/-- canCompareExt from compare.go; the cached one-time LibreOffice
probe is passed in as a boolean. -/
def canCompareExt (hasLibreOffice : Bool) (ext : String) : Bool :=
  if rasterExts (toLowerStr ext) then true
  else if vectorExts (toLowerStr ext) then hasLibreOffice
  else false

/-! ## Group partitioner -/

/-- The grouping key of an image name: its lowercased extension. -/
def extName (name : String) : String :=
  toLowerStr (filePathExt name)

/-- The by-name ordering that groupByExt sorts each group with. -/
def entryLE (a b : imageEntry) : Prop :=
  strLe a.name b.name

instance : DecidableRel entryLE :=
  fun a b => inferInstanceAs (Decidable (strLe a.name b.name))

/-- Sorting a group by ascending name (sort.Slice with a name
comparator; ties cannot arise since names are unique within a side). -/
def sortEntries (l : List imageEntry) : List imageEntry :=
  List.insertionSort entryLE l

/-- The entries of an input mapping, in iteration order. -/
def entriesOf (images : List (String × String)) : List imageEntry :=
  images.map (fun p => ⟨p.1, p.2⟩)

/-- groupByExt from compare.go as a function from the lowercased
extension to the ascending-by-name group (the empty list for an
extension with no images, exactly like indexing the Go map). -/
def groupByExt (images : List (String × String)) (ext : String) : List imageEntry :=
  sortEntries ((entriesOf images).filter (fun e => extName e.name == ext))

/-- The sorted list of all extensions present on either side (allExts
plus sort.Strings in MatchImageSets). -/
def sortedExts (images1 images2 : List (String × String)) : List String :=
  List.insertionSort strLe
    ((images1.map (fun p => extName p.1) ++ images2.map (fun p => extName p.1)).dedup)

/-! ## Three-phase matching -/

/-- Did a compare invocation report identical content?  Errors count as
no (phase 1 skips the candidate on error: the continue statement). -/
def isIdenticalRes (r : Except String (Bool × ℚ × String)) : Bool :=
  match r with
  | Except.ok (false, _, _) => true
  | _ => false

/-- The phase-1 inner scan for one left image: find the first unmatched
right entry whose comparison reports identical, returning it and the
remaining right entries (the matched2 index bookkeeping of the Go code
is represented by removing the matched entry from the remaining list,
which preserves the relative order of the rest). -/
def findMatch (cmp : Cmp) (tempDir : String) (e1 : imageEntry) :
    List imageEntry → Option (imageEntry × List imageEntry)
  | [] => none
  | e2 :: rest =>
    if isIdenticalRes (cmp e1.path e2.path tempDir) then some (e2, rest)
    else
      match findMatch cmp tempDir e1 rest with
      | some (m, rest2) => some (m, e2 :: rest2)
      | none => none

/-- Phase 1 of matchExtGroup: greedy first-fit exact-content matching.
Returns the matched pairs in left order together with the unmatched
left and right entries in their original order. -/
def phase1 (cmp : Cmp) (tempDir : String) :
    List imageEntry → List imageEntry →
      List MatchedPair × List imageEntry × List imageEntry
  | [], list2 => ([], [], list2)
  | e1 :: rest, list2 =>
    match findMatch cmp tempDir e1 list2 with
    | some (e2, list2x) =>
      let p := phase1 cmp tempDir rest list2x
      (⟨toInfo e1, toInfo e2⟩ :: p.1, p.2.1, p.2.2)
    | none =>
      let p := phase1 cmp tempDir rest list2
      (p.1, e1 :: p.2.1, p.2.2)

/-- The DiffPair recorded for one phase-2 pair: the artifact is renamed
to name1-name2.ext inside the output directory when the comparison was
different and produced one (the rename failure is ignored by the Go
code, which reports the final path regardless). -/
def mkDiffPair (diffDir : String) (e1 e2 : imageEntry) (isDiff : Bool)
    (psnr : ℚ) (tmpPath : String) : DiffPair :=
  let ext := filePathExt e1.name
  let base1 := trimSuffix e1.name ext
  let base2 := trimSuffix e2.name ext
  ⟨toInfo e1, toInfo e2, psnr,
    if isDiff ∧ tmpPath ≠ "" then joinPath diffDir (base1 ++ "-" ++ base2 ++ ext)
    else ""⟩

/-- Phase 2 of matchExtGroup: pair the leftovers index by index up to
the shorter side, aborting on the first comparison error. -/
def phase2 (cmp : Cmp) (diffDir : String) :
    List imageEntry → List imageEntry → Except String (List DiffPair)
  | e1 :: r1, e2 :: r2 =>
    match cmp e1.path e2.path diffDir with
    | Except.error msg =>
      Except.error ("failed to compare " ++ e1.name ++ " vs " ++ e2.name ++ ": " ++ msg)
    | Except.ok (isDiff, psnr, tmpPath) =>
      match phase2 cmp diffDir r1 r2 with
      | Except.error e => Except.error e
      | Except.ok ds => Except.ok (mkDiffPair diffDir e1 e2 isDiff psnr tmpPath :: ds)
  | _, _ => Except.ok []

/-- The unmatched left entries after phase 1. -/
def left1 (cmp : Cmp) (tempDir : String) (l1 l2 : List imageEntry) : List imageEntry :=
  (phase1 cmp tempDir l1 l2).2.1

/-- The unmatched right entries after phase 1. -/
def left2 (cmp : Cmp) (tempDir : String) (l1 l2 : List imageEntry) : List imageEntry :=
  (phase1 cmp tempDir l1 l2).2.2

/-- The number of index-paired leftovers: the length of the shorter
unmatched side (minLen in the Go code). -/
def minLen (cmp : Cmp) (tempDir : String) (l1 l2 : List imageEntry) : Nat :=
  min (left1 cmp tempDir l1 l2).length (left2 cmp tempDir l1 l2).length

/-- matchExtGroup from compare.go: the three phases over one extension
group, appending into the accumulated result. -/
def matchExtGroup (cmp : Cmp) (list1 list2 : List imageEntry)
    (tempDir diffDir : String) (result : MatchResult) : Except String MatchResult :=
  match phase2 cmp diffDir (left1 cmp tempDir list1 list2) (left2 cmp tempDir list1 list2) with
  | Except.error e => Except.error e
  | Except.ok ds =>
    Except.ok { result with
      Matched := result.Matched ++ (phase1 cmp tempDir list1 list2).1
      Different := result.Different ++ ds
      OnlyIn1 := result.OnlyIn1 ++
        ((left1 cmp tempDir list1 list2).drop (minLen cmp tempDir list1 list2)).map toInfo
      OnlyIn2 := result.OnlyIn2 ++
        ((left2 cmp tempDir list1 list2).drop (minLen cmp tempDir list1 list2)).map toInfo }

/-- The per-extension body of the MatchImageSets loop: route the whole
group to Skipped when the extension is not comparable, otherwise run
the three-phase matching. -/
def extStep (cmp : Cmp) (hasLO : Bool) (g1 g2 : String → List imageEntry)
    (tempDir diffDir ext : String) (acc : MatchResult) : Except String MatchResult :=
  if canCompareExt hasLO ext then
    matchExtGroup cmp (g1 ext) (g2 ext) tempDir diffDir acc
  else
    Except.ok { acc with
      Skipped := acc.Skipped ++ (g1 ext).map toInfo ++ (g2 ext).map toInfo }

/-- The loop of MatchImageSets over the sorted extensions, aborting on
the first error. -/
def matchLoop (cmp : Cmp) (hasLO : Bool) (g1 g2 : String → List imageEntry)
    (tempDir diffDir : String) : List String → MatchResult → Except String MatchResult
  | [], acc => Except.ok acc
  | ext :: rest, acc =>
    match extStep cmp hasLO g1 g2 tempDir diffDir ext acc with
    | Except.error e => Except.error e
    | Except.ok acc2 => matchLoop cmp hasLO g1 g2 tempDir diffDir rest acc2

/-- MatchImageSets from compare.go.  The one-time LibreOffice probe and
the temporary working directory (a fresh MkdirTemp in Go, assumed to
succeed) are explicit parameters of the model. -/
def MatchImageSets (cmp : Cmp) (hasLO : Bool)
    (images1 images2 : List (String × String))
    (diffImgsDir tempDir : String) : Except String MatchResult :=
  matchLoop cmp hasLO (groupByExt images1) (groupByExt images2) tempDir diffImgsDir
    (sortedExts images1 images2) emptyResult


/-! ## Claim C8: capability routing -/

/-- C8: canCompareExt holds iff the lowercased extension is raster, or
vector with the LibreOffice capability present; and when it does not
hold, the extension step routes both sides of the group to Skipped,
leaves every other bucket untouched, never errs, and does so without
consulting the oracle (the step is the same for any two oracles). -/
theorem canCompareExt_skip (hasLO : Bool) (ext : String) (cmp cmp2 : Cmp)
    (g1 g2 : String → List imageEntry) (tempDir diffDir : String) (acc : MatchResult) :
    (canCompareExt hasLO ext = true ↔
      rasterExts (toLowerStr ext) = true ∨
        (vectorExts (toLowerStr ext) = true ∧ hasLO = true)) ∧
    (canCompareExt hasLO ext = false →
      extStep cmp hasLO g1 g2 tempDir diffDir ext acc =
        Except.ok { acc with
          Skipped := acc.Skipped ++ (g1 ext).map toInfo ++ (g2 ext).map toInfo } ∧
      extStep cmp hasLO g1 g2 tempDir diffDir ext acc =
        extStep cmp2 hasLO g1 g2 tempDir diffDir ext acc) := by
  constructor
  · unfold canCompareExt
    by_cases hr : rasterExts (toLowerStr ext) <;>
      by_cases hv : vectorExts (toLowerStr ext) <;>
        simp [hr, hv]
  · intro h
    unfold extStep
    rw [h]
    simp

/-- An oracle that always reports a difference. -/
def cmpDiffZero : Cmp := fun _ _ _ => Except.ok (true, 0, "art")

/-- An oracle that always reports identical content. -/
def cmpIdent : Cmp := fun _ _ _ => Except.ok (false, 0, "")

/-- A one-group mapping of a vector image, as a group function. -/
def gWmf : String → List imageEntry := fun ext =>
  if ext = ".wmf" then [⟨"c.wmf", "p"⟩] else []

/-- Witness for canCompareExt_skip: a .wmf group without the
capability lands in Skipped, for any oracle. -/
theorem canCompareExt_skip_witness :
    extStep cmpDiffZero false gWmf gWmf "t" "d" ".wmf" emptyResult =
      Except.ok { emptyResult with
        Skipped := emptyResult.Skipped ++ (gWmf ".wmf").map toInfo ++
          (gWmf ".wmf").map toInfo } ∧
    extStep cmpDiffZero false gWmf gWmf "t" "d" ".wmf" emptyResult =
      extStep cmpIdent false gWmf gWmf "t" "d" ".wmf" emptyResult :=
  (canCompareExt_skip false ".wmf" cmpDiffZero cmpIdent gWmf gWmf "t" "d"
    emptyResult).2 (by decide)

/-! ## Claim C10: case-insensitive extension grouping -/

/-- C10: grouping is keyed on the lowercased extension - an entry lies
in the group of extension ext exactly when it is an input entry whose
lowercased extension is ext, so two names whose extensions differ only
in case share a group key and are eligible to be matched against each
other; and the capability check only depends on the lowercased
extension. -/
theorem groupByExt_lowercase (images : List (String × String)) (ext : String)
    (e : imageEntry) (hasLO : Bool) (n1 n2 : String) :
    (e ∈ groupByExt images ext ↔
      e ∈ entriesOf images ∧ extName e.name = ext) ∧
    (toLowerStr (filePathExt n1) = toLowerStr (filePathExt n2) →
      extName n1 = extName n2 ∧
      canCompareExt hasLO (filePathExt n1) = canCompareExt hasLO (filePathExt n2)) := by
  constructor
  · unfold groupByExt sortEntries
    rw [(List.perm_insertionSort entryLE _).mem_iff, List.mem_filter]
    simp [beq_iff_eq]
  · intro h
    constructor
    · exact h
    · unfold canCompareExt
      rw [h]

/-- Witness for groupByExt_lowercase: A.PNG and b.png share the group
key .png, and the capability answer agrees across the case change. -/
theorem groupByExt_lowercase_witness :
    ((⟨"A.PNG", "p1"⟩ : imageEntry) ∈
        groupByExt [("A.PNG", "p1"), ("b.png", "p2")] ".png" ↔
      (⟨"A.PNG", "p1"⟩ : imageEntry) ∈
          entriesOf [("A.PNG", "p1"), ("b.png", "p2")] ∧
        extName "A.PNG" = ".png") ∧
    (extName "A.PNG" = extName "b.png" ∧
      canCompareExt true (filePathExt "A.PNG") =
        canCompareExt true (filePathExt "b.png")) :=
  ⟨(groupByExt_lowercase [("A.PNG", "p1"), ("b.png", "p2")] ".png"
      ⟨"A.PNG", "p1"⟩ true "A.PNG" "b.png").1,
   (groupByExt_lowercase [("A.PNG", "p1"), ("b.png", "p2")] ".png"
      ⟨"A.PNG", "p1"⟩ true "A.PNG" "b.png").2 (by decide)⟩


/-! ## Claim C1: which oracle errors abort the reconciliation -/

theorem phase2_isErr (cmp : Cmp) (diffDir : String) :
    ∀ u1 u2 : List imageEntry,
      isErr (phase2 cmp diffDir u1 u2) =
        (u1.zip u2).any (fun p => isErr (cmp p.1.path p.2.path diffDir))
  | [], u2 => by simp [phase2, isErr]
  | e1 :: r1, [] => by simp [phase2, isErr]
  | e1 :: r1, e2 :: r2 => by
    unfold phase2
    cases hc : cmp e1.path e2.path diffDir with
    | error msg => simp [isErr, hc]
    | ok v =>
      obtain ⟨isDiff, psnr, tmpPath⟩ := v
      have ih := phase2_isErr cmp diffDir r1 r2
      have hf : isErr (cmp e1.path e2.path diffDir) = false := by rw [hc]; rfl
      simp only [List.zip_cons_cons, List.any_cons, hf, Bool.false_or, ← ih]
      cases phase2 cmp diffDir r1 r2 <;> rfl

theorem isErr_matchExtGroup (cmp : Cmp) (l1 l2 : List imageEntry)
    (tempDir diffDir : String) (acc : MatchResult) :
    isErr (matchExtGroup cmp l1 l2 tempDir diffDir acc) =
      isErr (phase2 cmp diffDir (left1 cmp tempDir l1 l2) (left2 cmp tempDir l1 l2)) := by
  unfold matchExtGroup
  cases phase2 cmp diffDir (left1 cmp tempDir l1 l2) (left2 cmp tempDir l1 l2) <;> rfl

theorem matchLoop_isErr (cmp : Cmp) (hasLO : Bool) (g1 g2 : String → List imageEntry)
    (tempDir diffDir : String) :
    ∀ (exts : List String) (acc : MatchResult),
      isErr (matchLoop cmp hasLO g1 g2 tempDir diffDir exts acc) =
        exts.any (fun ext => canCompareExt hasLO ext &&
          isErr (phase2 cmp diffDir (left1 cmp tempDir (g1 ext) (g2 ext))
            (left2 cmp tempDir (g1 ext) (g2 ext))))
  | [], acc => by simp [matchLoop, isErr]
  | ext :: rest, acc => by
    unfold matchLoop extStep
    by_cases hcan : canCompareExt hasLO ext
    · rw [if_pos hcan]
      have hmgE := isErr_matchExtGroup cmp (g1 ext) (g2 ext) tempDir diffDir acc
      cases hmg : matchExtGroup cmp (g1 ext) (g2 ext) tempDir diffDir acc with
      | error e =>
        rw [hmg] at hmgE
        simp only [List.any_cons]
        rw [← hmgE, hcan]
        simp [isErr]
      | ok acc2 =>
        rw [hmg] at hmgE
        rw [matchLoop_isErr cmp hasLO g1 g2 tempDir diffDir rest acc2]
        simp only [List.any_cons]
        rw [← hmgE, hcan]
        simp [isErr]
    · rw [if_neg hcan]
      show isErr (matchLoop cmp hasLO g1 g2 tempDir diffDir rest
        { acc with Skipped := acc.Skipped ++ (g1 ext).map toInfo ++ (g2 ext).map toInfo }) = _
      rw [matchLoop_isErr cmp hasLO g1 g2 tempDir diffDir rest]
      have hcf : canCompareExt hasLO ext = false := by simpa using hcan
      simp [hcf]

/-- C1 counterexample: an oracle that raises a hard error for every
phase-1 invocation (output directory tmp) but succeeds in phase 2. -/
def cmpErrTmp : Cmp := fun _ _ dir =>
  if dir = "tmp" then Except.error "boom" else Except.ok (true, 0, "art")

/-- C1 counterexample: the only phase-1 oracle invocation of this run
(comparing paths A and B in the temp directory) returns a hard error,
yet MatchImageSets returns a fully usable ok result instead of
aborting - refuting the claim that hard errors in phase 1 propagate. -/
theorem matchImageSets_phase1_error_swallowed :
    cmpErrTmp "A" "B" "tmp" = Except.error "boom" ∧
    MatchImageSets cmpErrTmp true [("a.png", "A")] [("b.png", "B")] "out" "tmp" =
      Except.ok ⟨[], [⟨⟨"a.png", "A"⟩, ⟨"b.png", "B"⟩, 0, "out/a-b.png"⟩], [], [], []⟩ := by
  constructor
  · rfl
  · rfl

/-- C1 amended: MatchImageSets aborts with a hard error exactly when
some comparable extension group has a phase-2 oracle invocation (one of
the index-paired leftover comparisons, run against the diff output
directory) that returns a hard error; phase-1 invocation errors are
swallowed (the candidate is merely treated as not matching) and never
abort the reconciliation. -/
theorem matchImageSets_error_iff (cmp : Cmp) (hasLO : Bool)
    (images1 images2 : List (String × String)) (diffImgsDir tempDir : String) :
    isErr (MatchImageSets cmp hasLO images1 images2 diffImgsDir tempDir) = true ↔
      ∃ ext ∈ sortedExts images1 images2, canCompareExt hasLO ext = true ∧
        ∃ p ∈ (left1 cmp tempDir (groupByExt images1 ext) (groupByExt images2 ext)).zip
            (left2 cmp tempDir (groupByExt images1 ext) (groupByExt images2 ext)),
          isErr (cmp p.1.path p.2.path diffImgsDir) = true := by
  unfold MatchImageSets
  rw [matchLoop_isErr]
  simp only [phase2_isErr, List.any_eq_true, Bool.and_eq_true]


/-! ## Claim C5: phase-2 pairing records DiffPairs, never Matched -/

/-- What phase 2 produces when every paired comparison succeeds: one
DiffPair per index k below the length of the shorter leftover side,
built from that comparison's reported score - whatever isDifferent it
reported. -/
def phase2Spec (cmp : Cmp) (diffDir : String) (u1 u2 : List imageEntry)
    (ds : List DiffPair) : Prop :=
  ds.length = min u1.length u2.length ∧
  ∀ (k : Nat) (h1 : k < u1.length) (h2 : k < u2.length) (hd : k < ds.length),
    ∃ isDiff psnr tmpPath,
      cmp (u1.get ⟨k, h1⟩).path (u2.get ⟨k, h2⟩).path diffDir =
        Except.ok (isDiff, psnr, tmpPath) ∧
      ds.get ⟨k, hd⟩ = mkDiffPair diffDir (u1.get ⟨k, h1⟩) (u2.get ⟨k, h2⟩) isDiff psnr tmpPath

theorem phase2_spec (cmp : Cmp) (diffDir : String) :
    ∀ u1 u2 ds, phase2 cmp diffDir u1 u2 = Except.ok ds →
      phase2Spec cmp diffDir u1 u2 ds
  | [], u2, ds => by
    intro h
    unfold phase2 at h
    cases h
    exact ⟨by simp, fun k h1 => absurd h1 (Nat.not_lt_zero k)⟩
  | e1 :: r1, [], ds => by
    intro h
    unfold phase2 at h
    cases h
    exact ⟨by simp, fun k h1 h2 => absurd h2 (Nat.not_lt_zero k)⟩
  | e1 :: r1, e2 :: r2, ds => by
    intro h
    unfold phase2 at h
    cases hc : cmp e1.path e2.path diffDir with
    | error msg => rw [hc] at h; exact absurd h (by simp)
    | ok v =>
      obtain ⟨isDiff, psnr, tmpPath⟩ := v
      rw [hc] at h
      cases hrec : phase2 cmp diffDir r1 r2 with
      | error e => rw [hrec] at h; exact absurd h (by simp)
      | ok ds2 =>
        rw [hrec] at h
        simp only [Option.some.injEq, Except.ok.injEq] at h
        subst h
        obtain ⟨ihlen, ihget⟩ := phase2_spec cmp diffDir r1 r2 ds2 hrec
        constructor
        · simp only [List.length_cons, ihlen]
          omega
        · intro k h1 h2 hd
          cases k with
          | zero =>
            exact ⟨isDiff, psnr, tmpPath, hc, rfl⟩
          | succ k2 =>
            exact ihget k2 (Nat.lt_of_succ_lt_succ h1) (Nat.lt_of_succ_lt_succ h2)
              (Nat.lt_of_succ_lt_succ hd)

/-- C5: for an extension group that completes without error, the
matched bucket gains exactly the phase-1 pairs (phase 2 never adds a
MatchedPair), and the different bucket gains exactly one DiffPair per
index k below the shorter leftover length, carrying the score the
comparison reported - even when that comparison reported the pair
identical. -/
theorem matchExtGroup_phase2_pairs (cmp : Cmp) (l1 l2 : List imageEntry)
    (tempDir diffDir : String) (acc R : MatchResult)
    (h : matchExtGroup cmp l1 l2 tempDir diffDir acc = Except.ok R) :
    R.Matched = acc.Matched ++ (phase1 cmp tempDir l1 l2).1 ∧
    ∃ ds, phase2 cmp diffDir (left1 cmp tempDir l1 l2) (left2 cmp tempDir l1 l2) =
        Except.ok ds ∧
      R.Different = acc.Different ++ ds ∧
      phase2Spec cmp diffDir (left1 cmp tempDir l1 l2) (left2 cmp tempDir l1 l2) ds := by
  unfold matchExtGroup at h
  cases hp : phase2 cmp diffDir (left1 cmp tempDir l1 l2) (left2 cmp tempDir l1 l2) with
  | error e => rw [hp] at h; exact absurd h (by simp)
  | ok ds =>
    rw [hp] at h
    simp only [Except.ok.injEq] at h
    subst h
    exact ⟨rfl, ds, rfl, rfl, phase2_spec cmp diffDir _ _ ds hp⟩

/-- The C5 witness oracle: phase-1 comparisons (temp directory t) say
different, the phase-2 comparison (output directory d) reports the two
images identical with score 7. -/
def cmpPhase2Ident : Cmp := fun _ _ dir =>
  if dir = "t" then Except.ok (true, 0, "") else Except.ok (false, 7, "")

/-- Witness for matchExtGroup_phase2_pairs: the identical-in-phase-2
pair lands in Different with score 7, not in Matched. -/
theorem matchExtGroup_phase2_pairs_witness :
    (⟨[], [⟨⟨"a.png", "A"⟩, ⟨"b.png", "B"⟩, 7, ""⟩], [], [], []⟩ : MatchResult).Matched =
      emptyResult.Matched ++
        (phase1 cmpPhase2Ident "t" [⟨"a.png", "A"⟩] [⟨"b.png", "B"⟩]).1 ∧
    ∃ ds, phase2 cmpPhase2Ident "d"
        (left1 cmpPhase2Ident "t" [⟨"a.png", "A"⟩] [⟨"b.png", "B"⟩])
        (left2 cmpPhase2Ident "t" [⟨"a.png", "A"⟩] [⟨"b.png", "B"⟩]) = Except.ok ds ∧
      (⟨[], [⟨⟨"a.png", "A"⟩, ⟨"b.png", "B"⟩, 7, ""⟩], [], [], []⟩ : MatchResult).Different =
        emptyResult.Different ++ ds ∧
      phase2Spec cmpPhase2Ident "d"
        (left1 cmpPhase2Ident "t" [⟨"a.png", "A"⟩] [⟨"b.png", "B"⟩])
        (left2 cmpPhase2Ident "t" [⟨"a.png", "A"⟩] [⟨"b.png", "B"⟩]) ds :=
  matchExtGroup_phase2_pairs cmpPhase2Ident [⟨"a.png", "A"⟩] [⟨"b.png", "B"⟩]
    "t" "d" emptyResult _ rfl


/-! ## Claim C9: OnlyIn lists preserve ascending-name order -/

instance : IsTotal imageEntry entryLE :=
  ⟨fun a b => leChars_total a.name.data b.name.data⟩

instance : IsTrans imageEntry entryLE :=
  ⟨fun a b c h1 h2 => leChars_trans a.name.data b.name.data c.name.data h1 h2⟩

/-- Ascending-name order on the public ImageInfo records. -/
def infoLE (a b : ImageInfo) : Prop :=
  strLe a.Name b.Name

instance : DecidableRel infoLE :=
  fun a b => inferInstanceAs (Decidable (strLe a.Name b.Name))

theorem findMatch_sublist (cmp : Cmp) (tempDir : String) (e1 : imageEntry) :
    ∀ {l2 e2 l2x}, findMatch cmp tempDir e1 l2 = some (e2, l2x) → l2x.Sublist l2
  | [], _, _ => by intro h; exact absurd h (by simp [findMatch])
  | b :: rest, e2, l2x => by
    intro h
    unfold findMatch at h
    by_cases hb : isIdenticalRes (cmp e1.path b.path tempDir)
    · rw [if_pos hb] at h
      simp only [Option.some.injEq, Prod.mk.injEq] at h
      rw [← h.2]
      exact List.sublist_cons_self b rest
    · rw [if_neg hb] at h
      cases hrec : findMatch cmp tempDir e1 rest with
      | none => rw [hrec] at h; exact absurd h (by simp)
      | some p =>
        obtain ⟨m, rest2⟩ := p
        rw [hrec] at h
        simp only [Option.some.injEq, Prod.mk.injEq] at h
        rw [← h.2]
        exact (findMatch_sublist cmp tempDir e1 hrec).cons₂ b

theorem left1_sublist (cmp : Cmp) (tempDir : String) :
    ∀ l1 l2, (left1 cmp tempDir l1 l2).Sublist l1
  | [], l2 => by simp [left1, phase1]
  | e1 :: rest, l2 => by
    unfold left1 phase1
    cases findMatch cmp tempDir e1 l2 with
    | some p =>
      exact (left1_sublist cmp tempDir rest p.2).cons e1
    | none =>
      exact (left1_sublist cmp tempDir rest l2).cons₂ e1

theorem left2_sublist (cmp : Cmp) (tempDir : String) :
    ∀ l1 l2, (left2 cmp tempDir l1 l2).Sublist l2
  | [], l2 => by simp [left2, phase1]
  | e1 :: rest, l2 => by
    unfold left2 phase1
    cases hf : findMatch cmp tempDir e1 l2 with
    | some p =>
      exact (left2_sublist cmp tempDir rest p.2).trans
        (findMatch_sublist cmp tempDir e1 (by rw [hf]))
    | none =>
      exact left2_sublist cmp tempDir rest l2

/-- C9: per-extension groups come out of the partitioner in ascending
name order, and for a group in ascending order the phase-3 leftovers
appended to OnlyIn1 and OnlyIn2 by a successful matchExtGroup are
themselves in ascending name order, appended after the entries
accumulated from the groups already processed. -/
theorem onlyIn_sorted (images : List (String × String)) (gext : String)
    (cmp : Cmp) (l1 l2 : List imageEntry) (tempDir diffDir : String)
    (acc R : MatchResult) :
    List.Sorted entryLE (groupByExt images gext) ∧
    (List.Sorted entryLE l1 → List.Sorted entryLE l2 →
      matchExtGroup cmp l1 l2 tempDir diffDir acc = Except.ok R →
      (R.OnlyIn1 = acc.OnlyIn1 ++
          ((left1 cmp tempDir l1 l2).drop (minLen cmp tempDir l1 l2)).map toInfo ∧
        List.Sorted infoLE
          (((left1 cmp tempDir l1 l2).drop (minLen cmp tempDir l1 l2)).map toInfo)) ∧
      (R.OnlyIn2 = acc.OnlyIn2 ++
          ((left2 cmp tempDir l1 l2).drop (minLen cmp tempDir l1 l2)).map toInfo ∧
        List.Sorted infoLE
          (((left2 cmp tempDir l1 l2).drop (minLen cmp tempDir l1 l2)).map toInfo))) := by
  constructor
  · exact List.sorted_insertionSort entryLE _
  · intro hs1 hs2 h
    unfold matchExtGroup at h
    cases hp : phase2 cmp diffDir (left1 cmp tempDir l1 l2) (left2 cmp tempDir l1 l2) with
    | error e => rw [hp] at h; exact absurd h (by simp)
    | ok ds =>
      rw [hp] at h
      simp only [Except.ok.injEq] at h
      subst h
      have hu1 : List.Sorted entryLE
          ((left1 cmp tempDir l1 l2).drop (minLen cmp tempDir l1 l2)) :=
        hs1.sublist ((List.drop_sublist _ _).trans (left1_sublist cmp tempDir l1 l2))
      have hu2 : List.Sorted entryLE
          ((left2 cmp tempDir l1 l2).drop (minLen cmp tempDir l1 l2)) :=
        hs2.sublist ((List.drop_sublist _ _).trans (left2_sublist cmp tempDir l1 l2))
      exact ⟨⟨rfl, hu1.map toInfo (fun a b hab => hab)⟩,
             ⟨rfl, hu2.map toInfo (fun a b hab => hab)⟩⟩

/-- Witness for onlyIn_sorted on a concrete sorted group whose right
side is empty: both leftovers land in OnlyIn1 in ascending order. -/
theorem onlyIn_sorted_witness :
    List.Sorted entryLE (groupByExt [("b.png", "B"), ("a.png", "A")] ".png") ∧
    ((⟨[], [], [⟨"a.png", "A"⟩, ⟨"c.png", "C"⟩], [], []⟩ : MatchResult).OnlyIn1 =
        emptyResult.OnlyIn1 ++
          ((left1 cmpDiffZero "t" [⟨"a.png", "A"⟩, ⟨"c.png", "C"⟩] []).drop
            (minLen cmpDiffZero "t" [⟨"a.png", "A"⟩, ⟨"c.png", "C"⟩] [])).map toInfo ∧
      List.Sorted infoLE
        (((left1 cmpDiffZero "t" [⟨"a.png", "A"⟩, ⟨"c.png", "C"⟩] []).drop
          (minLen cmpDiffZero "t" [⟨"a.png", "A"⟩, ⟨"c.png", "C"⟩] [])).map toInfo)) ∧
    ((⟨[], [], [⟨"a.png", "A"⟩, ⟨"c.png", "C"⟩], [], []⟩ : MatchResult).OnlyIn2 =
        emptyResult.OnlyIn2 ++
          ((left2 cmpDiffZero "t" [⟨"a.png", "A"⟩, ⟨"c.png", "C"⟩] []).drop
            (minLen cmpDiffZero "t" [⟨"a.png", "A"⟩, ⟨"c.png", "C"⟩] [])).map toInfo ∧
      List.Sorted infoLE
        (((left2 cmpDiffZero "t" [⟨"a.png", "A"⟩, ⟨"c.png", "C"⟩] []).drop
          (minLen cmpDiffZero "t" [⟨"a.png", "A"⟩, ⟨"c.png", "C"⟩] [])).map toInfo)) := by
  obtain ⟨h1, h2⟩ := onlyIn_sorted [("b.png", "B"), ("a.png", "A")] ".png"
    cmpDiffZero [⟨"a.png", "A"⟩, ⟨"c.png", "C"⟩] [] "t" "d" emptyResult
    ⟨[], [], [⟨"a.png", "A"⟩, ⟨"c.png", "C"⟩], [], []⟩
  obtain ⟨ha, hb⟩ := h2 (by decide) (by decide) rfl
  exact ⟨h1, ha, hb⟩


/-! ## Claim C4: every image lands in exactly one bucket -/

theorem findMatch_perm (cmp : Cmp) (tempDir : String) (e1 : imageEntry) :
    ∀ {l2 e2 l2x}, findMatch cmp tempDir e1 l2 = some (e2, l2x) → l2.Perm (e2 :: l2x)
  | [], _, _ => by intro h; exact absurd h (by simp [findMatch])
  | b :: rest, e2, l2x => by
    intro h
    unfold findMatch at h
    by_cases hb : isIdenticalRes (cmp e1.path b.path tempDir)
    · rw [if_pos hb] at h
      simp only [Option.some.injEq, Prod.mk.injEq] at h
      rw [h.1, ← h.2]
    · rw [if_neg hb] at h
      cases hrec : findMatch cmp tempDir e1 rest with
      | none => rw [hrec] at h; exact absurd h (by simp)
      | some p =>
        obtain ⟨m, rest2⟩ := p
        rw [hrec] at h
        simp only [Option.some.injEq, Prod.mk.injEq] at h
        have ih := findMatch_perm cmp tempDir e1 hrec
        rw [← h.1, ← h.2]
        exact (ih.cons b).trans (List.Perm.swap m b rest2)

theorem phase1_perm1 (cmp : Cmp) (tempDir : String) :
    ∀ (l1 l2 : List imageEntry), (l1.map toInfo).Perm
      ((phase1 cmp tempDir l1 l2).1.map (fun m => m.Image1) ++
        (phase1 cmp tempDir l1 l2).2.1.map toInfo)
  | [], l2 => by simp [phase1]
  | e1 :: rest, l2 => by
    unfold phase1
    cases hf : findMatch cmp tempDir e1 l2 with
    | some p =>
      obtain ⟨e2, l2x⟩ := p
      simpa using (phase1_perm1 cmp tempDir rest l2x).cons (toInfo e1)
    | none =>
      have ih := (phase1_perm1 cmp tempDir rest l2).cons (toInfo e1)
      simp only [List.map_cons]
      exact ih.trans List.perm_middle.symm

theorem phase1_perm2 (cmp : Cmp) (tempDir : String) :
    ∀ (l1 l2 : List imageEntry), (l2.map toInfo).Perm
      ((phase1 cmp tempDir l1 l2).1.map (fun m => m.Image2) ++
        (phase1 cmp tempDir l1 l2).2.2.map toInfo)
  | [], l2 => by simp [phase1]
  | e1 :: rest, l2 => by
    unfold phase1
    cases hf : findMatch cmp tempDir e1 l2 with
    | some p =>
      obtain ⟨e2, l2x⟩ := p
      have hperm := (findMatch_perm cmp tempDir e1 hf).map toInfo
      have ih := phase1_perm2 cmp tempDir rest l2x
      simp only [List.map_cons, List.cons_append] at hperm ⊢
      exact hperm.trans (ih.cons (toInfo e2))
    | none =>
      exact phase1_perm2 cmp tempDir rest l2

theorem phase2_maps (cmp : Cmp) (diffDir : String) :
    ∀ u1 u2 ds, phase2 cmp diffDir u1 u2 = Except.ok ds →
      ds.map (fun p => p.Image1) = (u1.take (min u1.length u2.length)).map toInfo ∧
      ds.map (fun p => p.Image2) = (u2.take (min u1.length u2.length)).map toInfo
  | [], u2, ds => by
    intro h
    unfold phase2 at h
    cases h
    simp
  | e1 :: r1, [], ds => by
    intro h
    unfold phase2 at h
    cases h
    simp
  | e1 :: r1, e2 :: r2, ds => by
    intro h
    unfold phase2 at h
    cases hc : cmp e1.path e2.path diffDir with
    | error msg => rw [hc] at h; exact absurd h (by simp)
    | ok v =>
      obtain ⟨isDiff, psnr, tmpPath⟩ := v
      rw [hc] at h
      cases hrec : phase2 cmp diffDir r1 r2 with
      | error e => rw [hrec] at h; exact absurd h (by simp)
      | ok ds2 =>
        rw [hrec] at h
        simp only [Except.ok.injEq] at h
        subst h
        obtain ⟨ih1, ih2⟩ := phase2_maps cmp diffDir r1 r2 ds2 hrec
        constructor
        · simp only [List.map_cons, List.length_cons, Nat.succ_min_succ,
            List.take_succ_cons]
          rw [ih1]
          rfl
        · simp only [List.map_cons, List.length_cons, Nat.succ_min_succ,
            List.take_succ_cons]
          rw [ih2]
          rfl

/-- All ImageInfo values a result carries, across its five buckets,
with multiplicity. -/
def resultImages (R : MatchResult) : Multiset ImageInfo :=
  ↑(R.Matched.map (fun m => m.Image1)) + ↑(R.Matched.map (fun m => m.Image2)) +
    ↑(R.Different.map (fun p => p.Image1)) + ↑(R.Different.map (fun p => p.Image2)) +
    ↑R.OnlyIn1 + ↑R.OnlyIn2 + ↑R.Skipped

theorem matchExtGroup_images (cmp : Cmp) (l1 l2 : List imageEntry)
    (tempDir diffDir : String) (acc R : MatchResult)
    (h : matchExtGroup cmp l1 l2 tempDir diffDir acc = Except.ok R) :
    resultImages R = resultImages acc + ↑(l1.map toInfo) + ↑(l2.map toInfo) := by
  unfold matchExtGroup at h
  cases hp : phase2 cmp diffDir (left1 cmp tempDir l1 l2) (left2 cmp tempDir l1 l2) with
  | error e => rw [hp] at h; exact absurd h (by simp)
  | ok ds =>
    rw [hp] at h
    simp only [Except.ok.injEq] at h
    subst h
    obtain ⟨hm1, hm2⟩ := phase2_maps cmp diffDir _ _ ds hp
    have hmin : min (left1 cmp tempDir l1 l2).length (left2 cmp tempDir l1 l2).length =
        minLen cmp tempDir l1 l2 := rfl
    rw [hmin] at hm1 hm2
    have hside1 : (↑(l1.map toInfo) : Multiset ImageInfo) =
        ↑((phase1 cmp tempDir l1 l2).1.map (fun m => m.Image1)) +
          ↑(ds.map (fun p => p.Image1)) +
          ↑(((left1 cmp tempDir l1 l2).drop (minLen cmp tempDir l1 l2)).map toInfo) := by
      rw [hm1, Multiset.coe_add, Multiset.coe_add, Multiset.coe_eq_coe,
        List.append_assoc, ← List.map_append, List.take_append_drop]
      exact phase1_perm1 cmp tempDir l1 l2
    have hside2 : (↑(l2.map toInfo) : Multiset ImageInfo) =
        ↑((phase1 cmp tempDir l1 l2).1.map (fun m => m.Image2)) +
          ↑(ds.map (fun p => p.Image2)) +
          ↑(((left2 cmp tempDir l1 l2).drop (minLen cmp tempDir l1 l2)).map toInfo) := by
      rw [hm2, Multiset.coe_add, Multiset.coe_add, Multiset.coe_eq_coe,
        List.append_assoc, ← List.map_append, List.take_append_drop]
      exact phase1_perm2 cmp tempDir l1 l2
    unfold resultImages
    dsimp only
    simp only [List.map_append, ← Multiset.coe_add]
    rw [hside1, hside2]
    abel


theorem matchLoop_images (cmp : Cmp) (hasLO : Bool) (g1 g2 : String → List imageEntry)
    (tempDir diffDir : String) :
    ∀ exts acc R, matchLoop cmp hasLO g1 g2 tempDir diffDir exts acc = Except.ok R →
      resultImages R = resultImages acc +
        ↑((exts.flatMap g1).map toInfo) + ↑((exts.flatMap g2).map toInfo)
  | [], acc, R => by
    intro h
    unfold matchLoop at h
    cases h
    simp
  | ext :: rest, acc, R => by
    intro h
    unfold matchLoop at h
    cases hs : extStep cmp hasLO g1 g2 tempDir diffDir ext acc with
    | error e => rw [hs] at h; exact absurd h (by simp)
    | ok acc2 =>
      rw [hs] at h
      have ih := matchLoop_images cmp hasLO g1 g2 tempDir diffDir rest acc2 R h
      have hstep : resultImages acc2 = resultImages acc +
          ↑((g1 ext).map toInfo) + ↑((g2 ext).map toInfo) := by
        unfold extStep at hs
        by_cases hcan : canCompareExt hasLO ext
        · rw [if_pos hcan] at hs
          exact matchExtGroup_images cmp (g1 ext) (g2 ext) tempDir diffDir acc acc2 hs
        · rw [if_neg hcan] at hs
          simp only [Except.ok.injEq] at hs
          subst hs
          unfold resultImages
          dsimp only
          simp only [← Multiset.coe_add]
          abel
      rw [ih, hstep, List.flatMap_cons, List.flatMap_cons, List.map_append,
        List.map_append]
      simp only [← Multiset.coe_add]
      abel

theorem flatMap_congr_mem {α β : Type} {f g : α → List β} :
    ∀ l : List α, (∀ a ∈ l, f a = g a) → l.flatMap f = l.flatMap g
  | [], _ => rfl
  | a :: l, h => by
    rw [List.flatMap_cons, List.flatMap_cons, h a (by simp),
      flatMap_congr_mem l (fun b hb => h b (by simp [hb]))]

theorem filter_partition : ∀ (E : List String) (l : List imageEntry), E.Nodup →
    (∀ e ∈ l, extName e.name ∈ E) →
    l.Perm (E.flatMap (fun x => l.filter (fun e => extName e.name == x)))
  | [], l => by
    intro _ hmem
    cases l with
    | nil => simp
    | cons e l2 => exact absurd (hmem e (by simp)) (by simp)
  | x :: E2, l => by
    intro hnd hmem
    have hnd2 : E2.Nodup := (List.nodup_cons.1 hnd).2
    have hx : x ∉ E2 := (List.nodup_cons.1 hnd).1
    have hsplit := (List.filter_append_perm (fun e => extName e.name == x) l).symm
    have hmem2 : ∀ e ∈ l.filter (fun e => !(extName e.name == x)),
        extName e.name ∈ E2 := by
      intro e he
      have hmem_l : e ∈ l := List.mem_of_mem_filter he
      have hne : ¬extName e.name = x := by
        have hp := List.of_mem_filter he
        simpa using hp
      have hin := hmem e hmem_l
      simp only [List.mem_cons] at hin
      rcases hin with heq | h2
      · exact absurd heq hne
      · exact h2
    have ih := filter_partition E2 (l.filter (fun e => !(extName e.name == x)))
      hnd2 hmem2
    have hfil : ∀ y ∈ E2,
        (l.filter (fun e => !(extName e.name == x))).filter
            (fun e => extName e.name == y) =
          l.filter (fun e => extName e.name == y) := by
      intro y hy
      rw [List.filter_filter]
      refine List.filter_congr ?_
      intro e _
      by_cases hey : extName e.name = y
      · have hyx : ¬y = x := fun hh => hx (hh ▸ hy)
        simp [hey, hyx]
      · simp [hey]
    have ih2 : (l.filter (fun e => !(extName e.name == x))).Perm
        (E2.flatMap (fun y => l.filter (fun e => extName e.name == y))) := by
      rw [← flatMap_congr_mem E2 hfil]
      exact ih
    refine hsplit.trans ?_
    rw [List.flatMap_cons]
    exact ih2.append_left (l.filter (fun e => extName e.name == x))

theorem mem_sortedExts_left (images1 images2 : List (String × String)) :
    ∀ e ∈ entriesOf images1, extName e.name ∈ sortedExts images1 images2 := by
  intro e he
  unfold sortedExts
  rw [(List.perm_insertionSort strLe _).mem_iff]
  apply List.mem_dedup.2
  apply List.mem_append.2
  left
  obtain ⟨p, hp, rfl⟩ := List.mem_map.1 he
  exact List.mem_map.2 ⟨p, hp, rfl⟩

theorem mem_sortedExts_right (images1 images2 : List (String × String)) :
    ∀ e ∈ entriesOf images2, extName e.name ∈ sortedExts images1 images2 := by
  intro e he
  unfold sortedExts
  rw [(List.perm_insertionSort strLe _).mem_iff]
  apply List.mem_dedup.2
  apply List.mem_append.2
  right
  obtain ⟨p, hp, rfl⟩ := List.mem_map.1 he
  exact List.mem_map.2 ⟨p, hp, rfl⟩

theorem sortedExts_nodup (images1 images2 : List (String × String)) :
    (sortedExts images1 images2).Nodup :=
  (List.perm_insertionSort strLe _).nodup_iff.2 (List.nodup_dedup _)

theorem entries_partition (images1 images2 images : List (String × String))
    (hsub : ∀ e ∈ entriesOf images, extName e.name ∈ sortedExts images1 images2) :
    ((entriesOf images).map toInfo).Perm
      (((sortedExts images1 images2).flatMap (fun x => groupByExt images x)).map toInfo) := by
  have h := filter_partition (sortedExts images1 images2) (entriesOf images)
    (sortedExts_nodup images1 images2) hsub
  have h2 : ((sortedExts images1 images2).flatMap (fun x => groupByExt images x)).Perm
      ((sortedExts images1 images2).flatMap
        (fun x => (entriesOf images).filter (fun e => extName e.name == x))) :=
    List.Perm.flatMap_left _ (fun x _ => List.perm_insertionSort entryLE _)
  exact (h.trans h2.symm).map toInfo

/-- C4: on a successful run every input image from either side is
accounted for exactly once across the five result buckets - the
multiset of all ImageInfo values the result carries equals the multiset
of the two input sides, so nothing is dropped or double-counted and the
phase-1 matched entries pair distinct left and right images. -/
theorem matchImageSets_partition (cmp : Cmp) (hasLO : Bool)
    (images1 images2 : List (String × String)) (diffImgsDir tempDir : String)
    (R : MatchResult)
    (h : MatchImageSets cmp hasLO images1 images2 diffImgsDir tempDir = Except.ok R) :
    resultImages R =
      ↑((entriesOf images1).map toInfo) + ↑((entriesOf images2).map toInfo) := by
  unfold MatchImageSets at h
  have hall := matchLoop_images cmp hasLO (groupByExt images1) (groupByExt images2)
    tempDir diffImgsDir (sortedExts images1 images2) emptyResult R h
  have hz : resultImages emptyResult = 0 := rfl
  rw [hz, zero_add] at hall
  rw [hall]
  have h1 := entries_partition images1 images2 images1
    (mem_sortedExts_left images1 images2)
  have h2 := entries_partition images1 images2 images2
    (mem_sortedExts_right images1 images2)
  rw [Multiset.coe_eq_coe.2 h1, Multiset.coe_eq_coe.2 h2]

/-- Witness for matchImageSets_partition on a concrete run: one image
per side, paired in phase 2. -/
theorem matchImageSets_partition_witness :
    resultImages ⟨[], [⟨⟨"a.png", "A"⟩, ⟨"b.png", "B"⟩, 0, "d/a-b.png"⟩], [], [], []⟩ =
      ↑((entriesOf [("a.png", "A")]).map toInfo) +
        ↑((entriesOf [("b.png", "B")]).map toInfo) :=
  matchImageSets_partition cmpDiffZero true [("a.png", "A")] [("b.png", "B")]
    "d" "t" _ rfl


/-! ## Claim C7: determinism

The embedding is a pure function of the inputs and the oracle, so the
only run-to-run nondeterminism of the Go code is the randomized
iteration order of the two input maps; groupByExt and the sorted
extension list neutralize it.  Determinism is stated as invariance of
MatchImageSets under permutations of the association lists, given the
map property that filenames are unique within one side. -/

/-- Strict ascending-name order: the by-name order together with
distinct names. -/
def entryLT (a b : imageEntry) : Prop :=
  entryLE a b ∧ a.name ≠ b.name

instance : IsAntisymm imageEntry entryLT :=
  ⟨fun a b h1 h2 => by
    have hd : a.name.data = b.name.data :=
      leChars_antisymm a.name.data b.name.data h1.1 h2.1
    have hn : a.name = b.name := congrArg String.mk hd
    exact absurd hn h1.2⟩

theorem sortEntries_eq_of_perm {F F2 : List imageEntry} (hperm : F.Perm F2)
    (hne : F.Pairwise (fun a b => a.name ≠ b.name)) :
    sortEntries F = sortEntries F2 := by
  have hS : (sortEntries F).Perm F := List.perm_insertionSort entryLE F
  have hS2 : (sortEntries F2).Perm F2 := List.perm_insertionSort entryLE F2
  have hchain : (sortEntries F).Perm (sortEntries F2) :=
    hS.trans (hperm.trans hS2.symm)
  have hsym : Symmetric (fun a b : imageEntry => a.name ≠ b.name) :=
    fun _ _ h => fun heq => h heq.symm
  have hneS : (sortEntries F).Pairwise (fun a b => a.name ≠ b.name) :=
    (hS.pairwise_iff (fun h => hsym h)).2 hne
  have hneF2 : F2.Pairwise (fun a b => a.name ≠ b.name) :=
    (hperm.pairwise_iff (fun h => hsym h)).1 hne
  have hneS2 : (sortEntries F2).Pairwise (fun a b => a.name ≠ b.name) :=
    (hS2.pairwise_iff (fun h => hsym h)).2 hneF2
  have hs1 : List.Sorted entryLT (sortEntries F) :=
    (List.sorted_insertionSort entryLE F).and hneS
  have hs2 : List.Sorted entryLT (sortEntries F2) :=
    (List.sorted_insertionSort entryLE F2).and hneS2
  exact List.eq_of_perm_of_sorted hchain hs1 hs2

theorem groupByExt_eq_of_perm {images imagesx : List (String × String)}
    (hperm : images.Perm imagesx) (hnd : (images.map Prod.fst).Nodup) :
    groupByExt images = groupByExt imagesx := by
  funext ext
  unfold groupByExt
  apply sortEntries_eq_of_perm
  · exact (hperm.map _).filter _
  · have hmapeq : (entriesOf images).map (fun e => e.name) = images.map Prod.fst := by
      unfold entriesOf
      rw [List.map_map]
      rfl
    have hnodup : ((entriesOf images).map (fun e => e.name)).Nodup := by
      rw [hmapeq]; exact hnd
    have hpw : (entriesOf images).Pairwise (fun a b => a.name ≠ b.name) :=
      List.pairwise_map.1 hnodup
    exact hpw.sublist (List.filter_sublist _)

theorem sortedExts_eq_of_perm {i1 i1x i2 i2x : List (String × String)}
    (hp1 : i1.Perm i1x) (hp2 : i2.Perm i2x) :
    sortedExts i1 i2 = sortedExts i1x i2x := by
  unfold sortedExts
  have hA : (i1.map (fun p => extName p.1) ++ i2.map (fun p => extName p.1)).Perm
      (i1x.map (fun p => extName p.1) ++ i2x.map (fun p => extName p.1)) :=
    (hp1.map _).append (hp2.map _)
  exact List.eq_of_perm_of_sorted
    ((List.perm_insertionSort strLe _).trans
      (hA.dedup.trans (List.perm_insertionSort strLe _).symm))
    (List.sorted_insertionSort strLe _) (List.sorted_insertionSort strLe _)

/-- C7: MatchImageSets is deterministic - it is a pure function of the
inputs and the oracle, and its value is moreover invariant under the
map-iteration order of the two inputs (any permutation of either
association list with filenames unique per side yields the same
MatchResult, bucket for bucket and entry for entry). -/
theorem matchImageSets_deterministic (cmp : Cmp) (hasLO : Bool)
    (images1 images1x images2 images2x : List (String × String))
    (diffImgsDir tempDir : String)
    (hp1 : images1.Perm images1x) (hp2 : images2.Perm images2x)
    (hn1 : (images1.map Prod.fst).Nodup) (hn2 : (images2.map Prod.fst).Nodup) :
    MatchImageSets cmp hasLO images1 images2 diffImgsDir tempDir =
      MatchImageSets cmp hasLO images1x images2x diffImgsDir tempDir := by
  unfold MatchImageSets
  rw [groupByExt_eq_of_perm hp1 hn1, groupByExt_eq_of_perm hp2 hn2,
    sortedExts_eq_of_perm hp1 hp2]

/-- Witness for matchImageSets_deterministic: the two iteration orders
of a two-image map give the same result. -/
theorem matchImageSets_deterministic_witness :
    MatchImageSets cmpIdent true [("a.png", "A"), ("b.png", "B")] [] "d" "t" =
      MatchImageSets cmpIdent true [("b.png", "B"), ("a.png", "A")] [] "d" "t" :=
  matchImageSets_deterministic cmpIdent true
    [("a.png", "A"), ("b.png", "B")] [("b.png", "B"), ("a.png", "A")] [] []
    "d" "t" (List.Perm.swap ("b.png", "B") ("a.png", "A") [])
    (List.Perm.refl []) (by decide) (by decide)

end DiffDocx
